import Mathlib

/-!
Verification development for the `gflydev/http` sanitizer.

The repository's core is a pair of Go functions:

* `SanitizeString(input string) string` — strips `<script ...>...</script>`
  blocks with the regex `(?is)<script.*?>.*?</script>`, trims surrounding
  whitespace, decodes HTML entities, and removes null bytes;
* `SanitizeStruct(target any)` / `sanitizeValue(val reflect.Value)` — a
  reflection-driven recursive walk that applies `SanitizeString` to every
  string location it can reach and set.

Strings are embedded as `List Char` (Go strings are sequences of runes for
the purposes of these functions).  The regex engine, the external
`str.Trim`, the standard-library `html.UnescapeString`, and the `reflect`
walk are each given an executable shallow embedding below, with comments
explaining exactly which behaviour of the original they capture.
-/

/-! ### The script-tag regex

Go compiles `(?is)<script.*?>.*?</script>` and removes every leftmost,
non-overlapping match (`ReplaceAllString(input, "")`).  With the `s` flag,
`.` matches every character including newlines; the lazy `.*?` quantifiers
mean the match starting at a position `i` is: the literal `<script`
(case-insensitive) at `i`, then up to the *first* subsequent `>`, then up
to the *first* subsequent `</script>` (case-insensitive).  A match starting
at `i` exists iff those three components can be found in order, because the
lazy engine only lengthens a `.*?` when the remainder cannot match at all,
and a later `>` can never make an otherwise absent `</script>` appear.
-/

/-- RE2 case folding for the characters of the pattern: ASCII letters fold
with their upper-case forms, and `ſ` (U+017F LATIN SMALL LETTER LONG S) is
in the same simple-fold orbit as `s`/`S`.  All other pattern characters
(`<`, `/`, `>`) are unaffected by folding. -/
def foldChar (c : Char) : Char :=
  if c = Char.ofNat 0x17F then 's' else c.toLower

/-- Case-insensitive character comparison used by the `(?i)` flag. -/
def ciChar (p c : Char) : Bool := foldChar p == foldChar c

/-- Test `ciStarts pat s`: `pat` is a case-insensitive prefix of `s`. -/
def ciStarts : List Char → List Char → Bool
  | [], _ => true
  | _ :: _, [] => false
  | p :: ps, c :: cs => ciChar p c && ciStarts ps cs

/-- The literal head of the pattern, `<script` (7 characters). -/
def scriptOpen : List Char := "<script".toList

/-- The literal closing tag of the pattern, `</script>` (9 characters). -/
def scriptClose : List Char := "</script>".toList

/-- Index of the first `>` in a list, as found by the lazy `.*?>`. -/
def findGt : List Char → Option Nat
  | [] => none
  | c :: rest => if c = '>' then some 0 else (findGt rest).map (· + 1)

/-- Index of the first position where `pat` starts (case-insensitively),
as found by the lazy `.*?` before the closing tag. -/
def findCI (pat : List Char) : List Char → Option Nat
  | [] => if ciStarts pat [] then some 0 else none
  | c :: rest =>
    if ciStarts pat (c :: rest) then some 0 else (findCI pat rest).map (· + 1)

/-- Length of the (unique, lazy-semantics) regex match starting at the head
of `s`, if the pattern `(?is)<script.*?>.*?</script>` matches there:
`<script` (7) + gap to the first `>` (`j`) + the `>` itself + gap to the
first `</script>` (`k`) + `</script>` (9). -/
def matchLen (s : List Char) : Option Nat :=
  if ciStarts scriptOpen s then
    (findGt (s.drop 7)).bind fun j =>
      (findCI scriptClose ((s.drop 7).drop (j + 1))).map fun k => 7 + j + 1 + k + 9
  else none

/-- Predicate `hasScript s`: some position of `s` starts a match of the script
pattern, i.e. `s` contains a substring matched by
`(?is)<script.*?>.*?</script>`. -/
def hasScript : List Char → Bool
  | [] => false
  | c :: rest => (matchLen (c :: rest)).isSome || hasScript rest

/-- One pass of `scriptTagPattern.ReplaceAllString(input, "")`: scan left to
right; at each position either remove the leftmost match and resume *after*
it (Go replaces non-overlapping matches and does not rescan the result), or
keep the character.  The `Nat` argument is fuel; every step consumes at
least one character, so fuel `s.length` computes the function (this keeps
the recursion structural, hence kernel-executable). -/
def stripGo : Nat → List Char → List Char
  | 0, s => s
  | _ + 1, [] => []
  | f + 1, c :: rest =>
    match matchLen (c :: rest) with
    | some n => stripGo f (List.drop n (c :: rest))
    | none => c :: stripGo f rest

/-- Step 1, `scriptTagPattern.ReplaceAllString(input, "")`. -/
def stripScripts (s : List Char) : List Char := stripGo s.length s

/-- Whitespace recognised by Go's `unicode.IsSpace` on the Latin-1 range:
`\t \n \v \f \r`, space, NEL (U+0085) and NBSP (U+00A0).  (The remaining
Unicode space separators are omitted; no claim exercises them.) -/
def isSpaceChar (c : Char) : Bool :=
  c = ' ' || c = '\t' || c = '\n' || c = Char.ofNat 0x0B || c = Char.ofNat 0x0C ||
    c = '\r' || c = Char.ofNat 0x85 || c = Char.ofNat 0xA0

/-- Modelled from the spec: `str.Trim` of the external `gflydev/utils/str`
package is not part of this repository; per the spec it removes leading and
trailing whitespace (step 2 of the pipeline). -/
def trimSpace (s : List Char) : List Char :=
  ((s.dropWhile isSpaceChar).reverse.dropWhile isSpaceChar).reverse

/-- Characters of the named entity `amp;`. -/
def ampEnt : List Char := "amp;".toList

/-- Characters of the named entity `lt;`. -/
def ltEnt : List Char := "lt;".toList

/-- Characters of the named entity `gt;`. -/
def gtEnt : List Char := "gt;".toList

/-- Characters of the named entity `quot;`. -/
def quotEnt : List Char := "quot;".toList

/-- Model of the Go standard library's `html.UnescapeString`, restricted to
the named entities `&amp;` `&lt;` `&gt;` `&quot;` (the full function knows
about two thousand names plus numeric references, none of which the claims
exercise).  Like the original it scans left to right, only reacts at `&`,
replaces a recognised entity by its character and continues *after* it
without rescanning the output, and copies an unrecognised `&` verbatim.
Fuel as in `stripGo`. -/
def unescGo : Nat → List Char → List Char
  | 0, s => s
  | _ + 1, [] => []
  | f + 1, c :: rest =>
    if c = '&' then
      if ampEnt.isPrefixOf rest then '&' :: unescGo f (rest.drop 4)
      else if ltEnt.isPrefixOf rest then '<' :: unescGo f (rest.drop 3)
      else if gtEnt.isPrefixOf rest then '>' :: unescGo f (rest.drop 3)
      else if quotEnt.isPrefixOf rest then '"' :: unescGo f (rest.drop 5)
      else '&' :: unescGo f rest
    else c :: unescGo f rest

/-- Step 3, `html.UnescapeString` (see `unescGo`). -/
def unescapeHTML (s : List Char) : List Char := unescGo s.length s

/-- The null byte `"\x00"`. -/
def nullChar : Char := Char.ofNat 0

/-- Step 4, `strings.ReplaceAll(clean, "\x00", "")`: delete every null byte. -/
def removeNulls (s : List Char) : List Char := s.filter (fun c => c != nullChar)

/-- Function `SanitizeString` from the source:

    if input == "" { return "" }
    clean := scriptTagPattern.ReplaceAllString(input, "")
    clean = str.Trim(clean)
    clean = html.UnescapeString(clean)
    clean = strings.ReplaceAll(clean, "\x00", "")
    return clean
-/
def SanitizeString (input : List Char) : List Char :=
  match input with
  | [] => []
  | _ =>
    removeNulls (unescapeHTML (trimSpace (stripScripts input)))

example : SanitizeString ("  Hello\x00World  ".toList) = "HelloWorld".toList := by decide

example :
    SanitizeString ("<scr<script>a</script>ipt>x</script>".toList) =
      "<script>x</script>".toList := by decide

example : hasScript ("<script>x</script>".toList) = true := by decide

example : SanitizeString ("&amp;amp;".toList) = "&amp;".toList := by decide

example : SanitizeString ("&amp;".toList) = "&".toList := by decide

example : SanitizeString ("&lt;b&gt;hi&lt;/b&gt;".toList) = "<b>hi</b>".toList := by decide

example :
    SanitizeString ("a<SCRIPT type=x>bad\npayload</ScRiPt>b".toList) = "ab".toList := by decide

/-! ### Regex-model lemmas

The amended universal claims below need that a match survives extending the
string to the right, and that `hasScript` is monotone under embedding a
string into a larger one. -/

theorem ciStarts_length {p s : List Char} (h : ciStarts p s = true) :
    p.length ≤ s.length := by
  induction p generalizing s with
  | nil => simp
  | cons a ps ih =>
    cases s with
    | nil => simp [ciStarts] at h
    | cons c cs =>
      simp only [ciStarts, Bool.and_eq_true] at h
      have := ih h.2
      simp only [List.length_cons]
      omega

theorem ciStarts_append {p s : List Char} (w : List Char) (h : ciStarts p s = true) :
    ciStarts p (s ++ w) = true := by
  induction p generalizing s with
  | nil => simp [ciStarts]
  | cons a ps ih =>
    cases s with
    | nil => simp [ciStarts] at h
    | cons c cs =>
      simp only [List.cons_append, ciStarts, Bool.and_eq_true] at h ⊢
      exact ⟨h.1, ih h.2⟩

theorem findGt_append {u : List Char} {j : Nat} (w : List Char)
    (h : findGt u = some j) : findGt (u ++ w) = some j := by
  induction u generalizing j with
  | nil => simp [findGt] at h
  | cons c cs ih =>
    rw [findGt] at h
    by_cases hc : c = '>'
    · rw [if_pos hc] at h
      rw [List.cons_append, findGt, if_pos hc]
      exact h
    · rw [if_neg hc] at h
      cases hj : findGt cs with
      | none => rw [hj] at h; simp at h
      | some j' =>
        rw [hj] at h
        simp only [Option.map_some'] at h
        rw [List.cons_append, findGt, if_neg hc, ih hj]
        simpa using h

theorem findGt_lt {u : List Char} {j : Nat} (h : findGt u = some j) : j < u.length := by
  induction u generalizing j with
  | nil => simp [findGt] at h
  | cons c cs ih =>
    rw [findGt] at h
    by_cases hc : c = '>'
    · rw [if_pos hc] at h
      simp only [Option.some.injEq] at h
      simp [← h]
    · rw [if_neg hc] at h
      cases hj : findGt cs with
      | none => rw [hj] at h; simp at h
      | some j' =>
        rw [hj] at h
        simp only [Option.map_some', Option.some.injEq] at h
        have := ih hj
        simp only [List.length_cons]
        omega

theorem findCI_append {pat u : List Char} (w : List Char)
    (h : (findCI pat u).isSome = true) : (findCI pat (u ++ w)).isSome = true := by
  induction u with
  | nil =>
    simp only [findCI] at h
    by_cases hp : ciStarts pat [] = true
    · have hp' := ciStarts_append w hp
      rw [List.nil_append] at hp'
      cases w with
      | nil => simp only [findCI, if_pos hp]; rfl
      | cons c cs => rw [List.nil_append]; simp only [findCI, if_pos hp']; rfl
    · rw [if_neg hp] at h
      simp at h
  | cons c cs ih =>
    simp only [findCI] at h
    by_cases hp : ciStarts pat (c :: cs) = true
    · have hp' := ciStarts_append w hp
      rw [List.cons_append] at hp' ⊢
      simp only [findCI, if_pos hp']
      rfl
    · rw [if_neg hp] at h
      have h' : (findCI pat cs).isSome = true := by
        cases hj : findCI pat cs with
        | none => rw [hj] at h; simp at h
        | some k => rfl
      have hrec := ih h'
      rw [List.cons_append]
      simp only [findCI]
      by_cases hq : ciStarts pat (c :: (cs ++ w)) = true
      · rw [if_pos hq]; rfl
      · rw [if_neg hq]
        cases hm : findCI pat (cs ++ w) with
        | none => rw [hm] at hrec; simp at hrec
        | some k => simp

theorem scriptOpen_length : scriptOpen.length = 7 := by decide

theorem matchLen_append {u : List Char} {n : Nat} (w : List Char)
    (h : matchLen u = some n) : (matchLen (u ++ w)).isSome = true := by
  rw [matchLen] at h
  by_cases hp : ciStarts scriptOpen u = true
  case neg => rw [if_neg hp] at h; simp at h
  rw [if_pos hp] at h
  obtain ⟨j, hj, h2⟩ := Option.bind_eq_some.mp h
  obtain ⟨k, hk, -⟩ := Option.map_eq_some'.mp h2
  have h7 : 7 ≤ u.length := by
    have := ciStarts_length hp
    rw [scriptOpen_length] at this
    exact this
  have hp' := ciStarts_append w hp
  have hdrop : (u ++ w).drop 7 = u.drop 7 ++ w := List.drop_append_of_le_length h7
  have hj' : findGt ((u ++ w).drop 7) = some j := by
    rw [hdrop]; exact findGt_append w hj
  have hjlt : j < (u.drop 7).length := findGt_lt hj
  have hdrop2 : (u.drop 7 ++ w).drop (j + 1) = (u.drop 7).drop (j + 1) ++ w :=
    List.drop_append_of_le_length (by omega)
  have hk' : (findCI scriptClose (((u ++ w).drop 7).drop (j + 1))).isSome = true := by
    rw [hdrop, hdrop2]
    exact findCI_append w (by rw [hk]; rfl)
  rw [matchLen, if_pos hp', hj']
  obtain ⟨k', hk'⟩ := Option.isSome_iff_exists.mp hk'
  rw [Option.some_bind, hk']
  rfl

theorem hasScript_append_right {u : List Char} (w : List Char)
    (h : hasScript u = true) : hasScript (u ++ w) = true := by
  induction u with
  | nil => simp [hasScript] at h
  | cons c cs ih =>
    rw [hasScript, Bool.or_eq_true] at h
    rw [List.cons_append, hasScript, Bool.or_eq_true]
    cases h with
    | inl hm =>
      left
      cases hn : matchLen (c :: cs) with
      | none => rw [hn] at hm; simp at hm
      | some n =>
        have := matchLen_append w hn
        rw [List.cons_append] at this
        exact this
    | inr hr => exact Or.inr (ih hr)

theorem hasScript_append_left {u : List Char} (p : List Char)
    (h : hasScript u = true) : hasScript (p ++ u) = true := by
  induction p with
  | nil => exact h
  | cons c cs ih =>
    rw [List.cons_append, hasScript, Bool.or_eq_true]
    exact Or.inr ih

/-! ### Trim, unescape and null-removal lemmas -/

/-- Trimming yields a contiguous slice: `s` is `p ++ trimSpace s ++ q`. -/
theorem trimSpace_decomp (s : List Char) :
    ∃ p q, s = p ++ trimSpace s ++ q := by
  refine ⟨s.takeWhile isSpaceChar,
    ((s.dropWhile isSpaceChar).reverse.takeWhile isSpaceChar).reverse, ?_⟩
  have h1 : s = s.takeWhile isSpaceChar ++ s.dropWhile isSpaceChar :=
    (List.takeWhile_append_dropWhile _ _).symm
  have h3 : (s.dropWhile isSpaceChar).reverse =
      (s.dropWhile isSpaceChar).reverse.takeWhile isSpaceChar ++
        (s.dropWhile isSpaceChar).reverse.dropWhile isSpaceChar :=
    (List.takeWhile_append_dropWhile _ _).symm
  have h4 := congrArg List.reverse h3
  rw [List.reverse_reverse, List.reverse_append] at h4
  rw [List.append_assoc, trimSpace, ← h4]
  exact h1

theorem hasScript_trimSpace {s : List Char} (h : hasScript s = false) :
    hasScript (trimSpace s) = false := by
  by_contra hc
  rw [Bool.not_eq_false] at hc
  obtain ⟨p, q, hs⟩ := trimSpace_decomp s
  have hall := hasScript_append_left p (hasScript_append_right q hc)
  rw [← List.append_assoc, ← hs, h] at hall
  exact Bool.false_ne_true hall

theorem mem_trimSpace {c : Char} {s : List Char} (h : c ∈ trimSpace s) : c ∈ s := by
  obtain ⟨p, q, hs⟩ := trimSpace_decomp s
  rw [hs]
  simp only [List.append_assoc, List.mem_append]
  exact Or.inr (Or.inl h)

/-- No `&` anywhere in the string: on such strings HTML unescaping is the
identity (true of the real `html.UnescapeString` as well, which only reacts
at `&`). -/
def noAmp (s : List Char) : Bool := s.all (fun c => c != '&')

/-- No null byte anywhere in the string. -/
def noNull (s : List Char) : Bool := s.all (fun c => c != nullChar)

theorem noAmp_trimSpace {s : List Char} (h : noAmp s = true) :
    noAmp (trimSpace s) = true := by
  rw [noAmp, List.all_eq_true] at h ⊢
  exact fun x hx => h x (mem_trimSpace hx)

theorem noNull_trimSpace {s : List Char} (h : noNull s = true) :
    noNull (trimSpace s) = true := by
  rw [noNull, List.all_eq_true] at h ⊢
  exact fun x hx => h x (mem_trimSpace hx)

/-- A string without a script match is left unchanged by
`ReplaceAllString` (with any sufficient fuel). -/
theorem stripGo_eq_self : ∀ (f : Nat) (s : List Char), s.length ≤ f →
    hasScript s = false → stripGo f s = s := by
  intro f
  induction f with
  | zero => intro s _ _; rfl
  | succ f ih =>
    intro s hl hs
    cases s with
    | nil => rfl
    | cons c cs =>
      rw [hasScript] at hs
      have hm := Bool.or_eq_false_iff.mp hs
      cases hn : matchLen (c :: cs) with
      | some n =>
        rw [hn] at hm
        simp at hm
      | none =>
        rw [List.length_cons] at hl
        simp only [stripGo, hn]
        rw [ih cs (by omega) hm.2]

theorem stripScripts_eq_self {s : List Char} (h : hasScript s = false) :
    stripScripts s = s :=
  stripGo_eq_self s.length s (Nat.le_refl _) h

/-- A string without `&` is left unchanged by HTML unescaping (with any
sufficient fuel). -/
theorem unescGo_eq_self : ∀ (f : Nat) (s : List Char), s.length ≤ f →
    noAmp s = true → unescGo f s = s := by
  intro f
  induction f with
  | zero => intro s _ _; rfl
  | succ f ih =>
    intro s hl ha
    cases s with
    | nil => rfl
    | cons c cs =>
      rw [noAmp, List.all_cons, Bool.and_eq_true] at ha
      have hc : ¬ (c = '&') := by simpa using ha.1
      rw [List.length_cons] at hl
      simp only [unescGo, if_neg hc]
      rw [ih cs (by omega) ha.2]

theorem unescapeHTML_eq_self {s : List Char} (h : noAmp s = true) :
    unescapeHTML s = s :=
  unescGo_eq_self s.length s (Nat.le_refl _) h

theorem removeNulls_eq_self {s : List Char} (h : noNull s = true) :
    removeNulls s = s := by
  rw [removeNulls, List.filter_eq_self]
  rw [noNull, List.all_eq_true] at h
  exact h

/-- A string that is already script-free, `&`-free, null-free and trimmed
is a fixed point of `SanitizeString`. -/
theorem sanitizeString_fixed {t : List Char} (h1 : hasScript t = false)
    (h2 : noAmp t = true) (h3 : noNull t = true) (h4 : trimSpace t = t) :
    SanitizeString t = t := by
  cases t with
  | nil => rfl
  | cons c cs =>
    show removeNulls (unescapeHTML (trimSpace (stripScripts (c :: cs)))) = c :: cs
    rw [stripScripts_eq_self h1, h4, unescapeHTML_eq_self h2, removeNulls_eq_self h3]

/-! ### Claims about `SanitizeString` -/

/-- C1 (counterexample).  The claim "for every string `s`, `SanitizeString s`
contains no case-insensitive `<script ...>...</script>` sequence" is false:
`ReplaceAllString` removes matches in a single left-to-right pass and never
rescans, so deleting `<script>a</script>` from
`"<scr<script>a</script>ipt>x</script>"` splices the surrounding text into
the brand-new block `"<script>x</script>"`, which survives to the output.
(Entity decoding and null-byte removal, both performed *after* the regex
pass, can likewise reintroduce a script block.) -/
theorem sanitizeString_script_reintroduced :
    hasScript (SanitizeString ("<scr<script>a</script>ipt>x</script>".toList)) = true := by
  decide

/-- C1 (amended).  If the input contains no complete script-pattern match,
no `&` and no null byte, then the output contains no script-pattern match:
on such inputs the regex pass is the identity, trimming only shrinks the
string (and cannot create a match), and entity decoding and null removal
are the identity. -/
theorem sanitizeString_scriptFree (s : List Char) (h1 : hasScript s = false)
    (h2 : noAmp s = true) (h3 : noNull s = true) :
    hasScript (SanitizeString s) = false := by
  cases s with
  | nil => rfl
  | cons c cs =>
    show hasScript (removeNulls (unescapeHTML (trimSpace (stripScripts (c :: cs))))) = false
    rw [stripScripts_eq_self h1,
      unescapeHTML_eq_self (noAmp_trimSpace h2),
      removeNulls_eq_self (noNull_trimSpace h3)]
    exact hasScript_trimSpace h1

/-- Witness for `sanitizeString_scriptFree` at `"a<b>"`. -/
theorem sanitizeString_scriptFree_witness :
    hasScript ("a<b>".toList) = false ∧ noAmp ("a<b>".toList) = true ∧
      noNull ("a<b>".toList) = true ∧
      hasScript (SanitizeString ("a<b>".toList)) = false :=
  ⟨by decide, by decide, by decide,
    sanitizeString_scriptFree ("a<b>".toList) (by decide) (by decide) (by decide)⟩

/-- C2 (counterexample).  `SanitizeString` is not idempotent: entity
decoding happens after script removal and is itself not iterated, so
`SanitizeString "&amp;amp;" = "&amp;"` while a second application decodes
again to `"&"`. -/
theorem sanitizeString_not_idempotent :
    SanitizeString (SanitizeString ("&amp;amp;".toList)) ≠
      SanitizeString ("&amp;amp;".toList) := by
  decide

/-- C2 (amended).  `SanitizeString` is idempotent exactly when its first
output is already clean: if `SanitizeString s` contains no script-pattern
match, no `&` and no null byte, and is already trimmed, then applying
`SanitizeString` again leaves it unchanged.  (The counterexample above
fails the `&`-freedom condition; an output with residual whitespace, nulls
or a spliced script block breaks idempotence the same way.) -/
theorem sanitizeString_idempotent_on_clean (s : List Char)
    (h1 : hasScript (SanitizeString s) = false)
    (h2 : noAmp (SanitizeString s) = true)
    (h3 : noNull (SanitizeString s) = true)
    (h4 : trimSpace (SanitizeString s) = SanitizeString s) :
    SanitizeString (SanitizeString s) = SanitizeString s :=
  sanitizeString_fixed h1 h2 h3 h4

/-- Witness for `sanitizeString_idempotent_on_clean` at `"  hi  "`. -/
theorem sanitizeString_idempotent_witness :
    hasScript (SanitizeString ("  hi  ".toList)) = false ∧
      noAmp (SanitizeString ("  hi  ".toList)) = true ∧
      noNull (SanitizeString ("  hi  ".toList)) = true ∧
      trimSpace (SanitizeString ("  hi  ".toList)) = SanitizeString ("  hi  ".toList) ∧
      SanitizeString (SanitizeString ("  hi  ".toList)) = SanitizeString ("  hi  ".toList) :=
  ⟨by decide, by decide, by decide, by decide,
    sanitizeString_idempotent_on_clean ("  hi  ".toList)
      (by decide) (by decide) (by decide) (by decide)⟩

/-- C3 (confirmed).  `SanitizeString` is a total function that applies, in
this order: (1) removal of every `(?is)<script.*?>.*?</script>` match,
(2) whitespace trimming, (3) HTML-entity decoding, (4) null-byte removal;
and the empty string returns empty immediately (the fast path agrees with
running the four steps). -/
theorem sanitizeString_pipeline_order :
    (∀ s : List Char,
        SanitizeString s = removeNulls (unescapeHTML (trimSpace (stripScripts s)))) ∧
      SanitizeString [] = [] := by
  refine ⟨fun s => ?_, rfl⟩
  cases s with
  | nil => rfl
  | cons c cs => rfl

/-- C8 (confirmed).  `SanitizeString "  Hello\x00World  " = "HelloWorld"`:
trimming removes exactly the leading and trailing whitespace, the null byte
is deleted with no replacement character, and the interior is otherwise
preserved. -/
theorem sanitizeString_null_byte_example :
    SanitizeString ("  Hello\x00World  ".toList) = "HelloWorld".toList := by
  decide

/-! ### The value graph and the reflection walk

The Go `sanitizeValue` walks `reflect.Value`s.  In every call reachable
from `SanitizeStruct` the current value is addressable (the root is
`Elem()` of a pointer, and `Elem`, `Field`, `Index` and `Addr` all preserve
addressability; map entry values are handled without recursing), so
`CanSet()` reduces to "the read-only flag is unset".  That flag is set
exactly when the value was reached through an unexported struct field, and
it is sticky: `Field`, `Elem`, `Index` and `Addr` propagate it.  The
embedding threads this flag as the `ro : Bool` parameter:

* struct field: `field.CanSet()` (exported and not `ro`) recurses into the
  field; otherwise `field.CanAddr()` always holds and the code recurses
  into `field.Addr()`, whose `Pointer` arm immediately takes `Elem()` back
  to the field — in both branches the net effect is a recursive call with
  `ro' = ro ∨ ¬exported`;
* slice/array element: `elem.CanAddr()` holds, and `Addr`/`Elem` round-trip
  as above: recursive call with the same `ro`;
* map entry: `elem.CanInterface()` is `¬ro`; a `ro` map is left untouched;
* string: `val.SetString(...)` — a Go panic when the read-only flag is set
  ("reflect: reflect.Value.SetString using value obtained using unexported
  field"), modelled as `.error ()`.
-/

mutual

/-- A map entry value as seen through `reflect.Value.MapIndex`: its
`Kind()` is the map's *declared* value type.  `mstr` is an entry of a
`map[K]string`; `miface` is an entry of a map whose declared value type is
an interface (e.g. `map[string]any`), so its `Kind()` is `Interface` and it
wraps an arbitrary dynamic value; `mval` is an entry of any other declared
value type (struct, int, …). -/
inductive MVal where
  | mstr : List Char → MVal
  | mval : Val → MVal
  | miface : Val → MVal

/-- The acyclic runtime value graphs the sanitizer walks, one constructor
per relevant `reflect.Kind`: strings, numeric and boolean scalars, a
catch-all `vother` for the kinds that hit the `default` arm (func, chan,
…), nil and non-nil pointers, structs (each field tagged with whether it is
exported — the tag drives `CanSet`), slices/arrays, and maps.  Inductive
values are finite and acyclic by construction, matching the spec's
assumption that request payloads are acyclic. -/
inductive Val where
  | vstr : List Char → Val
  | vint : Int → Val
  | vbool : Bool → Val
  | vother : Nat → Val
  | vptrNil : Val
  | vptr : Val → Val
  | vstruct : List (Bool × Val) → Val
  | vslice : List Val → Val
  | vmap : List (List Char × MVal) → Val

end

/-- One map entry: the source overwrites entries whose `Kind()` is `String`
with the cleaned string (`SetMapIndex`) and leaves every other entry —
including an interface-wrapped dynamic string — untouched. -/
def sanMV : MVal → MVal
  | .mstr s => .mstr (SanitizeString s)
  | .mval v => .mval v
  | .miface v => .miface v

/-- The body of the `reflect.Map` arm: rewrite each string-kind entry
value, never touching keys. -/
def sanEntries (es : List (List Char × MVal)) : List (List Char × MVal) :=
  es.map fun e => (e.1, sanMV e.2)

mutual

/-- Function `sanitizeValue` from the source (see the section comment for the
`ro` flag).  `.error ()` is the `SetString` panic on a read-only string. -/
def sanitizeValue (ro : Bool) : Val → Except Unit Val
  | .vstr s => if ro then .error () else .ok (.vstr (SanitizeString s))
  | .vint n => .ok (.vint n)
  | .vbool b => .ok (.vbool b)
  | .vother t => .ok (.vother t)
  | .vptrNil => .ok .vptrNil
  | .vptr v =>
    match sanitizeValue ro v with
    | .error e => .error e
    | .ok r => .ok (.vptr r)
  | .vstruct fs =>
    match sanitizeFields ro fs with
    | .error e => .error e
    | .ok rs => .ok (.vstruct rs)
  | .vslice es =>
    match sanitizeElems ro es with
    | .error e => .error e
    | .ok rs => .ok (.vslice rs)
  | .vmap es => .ok (.vmap (if ro then es else sanEntries es))

/-- The `reflect.Struct` arm: field by field, recursing with the read-only
flag updated to `ro ∨ ¬exported` (the `CanSet` / `CanAddr` branching; see
the section comment). -/
def sanitizeFields (ro : Bool) : List (Bool × Val) → Except Unit (List (Bool × Val))
  | [] => .ok []
  | (ex, v) :: fs =>
    match sanitizeValue (ro || !ex) v with
    | .error err => .error err
    | .ok r =>
      match sanitizeFields ro fs with
      | .error err => .error err
      | .ok rs => .ok ((ex, r) :: rs)

/-- The `reflect.Slice` / `reflect.Array` arm: element by element. -/
def sanitizeElems (ro : Bool) : List Val → Except Unit (List Val)
  | [] => .ok []
  | v :: vs =>
    match sanitizeValue ro v with
    | .error err => .error err
    | .ok r =>
      match sanitizeElems ro vs with
      | .error err => .error err
      | .ok rs => .ok (r :: rs)

end

/-- The argument of `SanitizeStruct(target any)`: Go's `nil`, a pointer to
a (mutable) value, or a non-pointer value. -/
inductive Target where
  | nilT : Target
  | ptrT : Val → Target
  | valT : Val → Target

/-- Function `SanitizeStruct` from the source: `nil` returns at once, a non-pointer
`Kind()` returns at once, and a pointer runs `sanitizeValue(val.Elem())`
(the `Elem` of a pointer taken from an interface is addressable and not
read-only, so `ro = false`).  The `.ok` result is the final state of the
caller's data; `.error ()` is a propagated panic. -/
def SanitizeStruct : Target → Except Unit Target
  | .nilT => .ok .nilT
  | .valT v => .ok (.valT v)
  | .ptrT v =>
    match sanitizeValue false v with
    | .error e => .error e
    | .ok r => .ok (.ptrT r)

example : sanitizeValue false (.vstruct [(true, .vstr ("  a  ".toList))]) =
    .ok (.vstruct [(true, .vstr ("a".toList))]) := by
  simp [sanitizeValue, sanitizeFields]
  decide

example : sanitizeValue false (.vstruct [(false, .vstr ("a".toList))]) = .error () := by
  simp [sanitizeValue, sanitizeFields]

/-! ### Claims about `SanitizeStruct`: trivial guards and maps -/

/-- C6 (confirmed).  `SanitizeStruct(nil)` and `SanitizeStruct` of a
non-pointer value return without panicking (a normal `.ok` result — both
guards fire before any traversal) and perform no mutation. -/
theorem sanitizeStruct_nil_nonpointer_noop :
    SanitizeStruct .nilT = .ok .nilT ∧ ∀ v, SanitizeStruct (.valT v) = .ok (.valT v) :=
  ⟨rfl, fun _ => rfl⟩

/-- C5 (confirmed).  On a map, every entry whose declared value kind is
string is overwritten with `SanitizeString` of the string; entries of any
other declared kind — plain values and interface-wrapped values alike —
are left completely untouched, so structures nested inside map values are
never sanitized.  Keys are never rewritten. -/
theorem sanitizeValue_map_entries (es : List (List Char × MVal)) :
    sanitizeValue false (.vmap es) = .ok (.vmap (es.map fun e => (e.1, sanMV e.2))) ∧
      (∀ s, sanMV (.mstr s) = .mstr (SanitizeString s)) ∧
      (∀ v, sanMV (.mval v) = .mval v) ∧
      (∀ v, sanMV (.miface v) = .miface v) := by
  refine ⟨?_, fun _ => rfl, fun _ => rfl, fun _ => rfl⟩
  simp [sanitizeValue, sanEntries]

/-- C10 (confirmed).  For a map whose declared value type is an interface
(`map[string]any`), `MapIndex` yields values of kind `Interface`, so the
`elem.Kind() == reflect.String` test fails for every entry — including
entries whose dynamic value is a string — and `SanitizeStruct` leaves the
whole map unchanged. -/
theorem sanitizeStruct_interface_map_untouched (l : List (List Char × Val)) :
    SanitizeStruct (.ptrT (.vmap (l.map fun p => (p.1, .miface p.2)))) =
      .ok (.ptrT (.vmap (l.map fun p => (p.1, .miface p.2)))) := by
  have h : sanEntries (l.map fun p => (p.1, .miface p.2)) =
      l.map fun p => (p.1, .miface p.2) := by
    rw [sanEntries, List.map_map]
    rfl
  simp [SanitizeStruct, sanitizeValue, h]

/-! ### C7: the walk only ever writes string positions -/

/-- Blank out the single writable position of a map entry (the string-kind
value); everything else is kept verbatim. -/
def eraseMV : MVal → MVal
  | .mstr _ => .mstr []
  | m => m

/-- Blank out the writable string position of every map entry, keeping the
keys. -/
def eraseEntries (es : List (List Char × MVal)) : List (List Char × MVal) :=
  es.map fun e => (e.1, eraseMV e.2)

mutual

/-- Blank out every string position the walk can write — string leaves
under pointers, struct fields and sequence elements, and string-kind map
entry values — keeping everything else: scalar values, exported-ness tags,
map keys, struct-typed and interface-wrapped map payloads, and the whole
shape.  Two values with the same `eraseStrings` image agree on all
non-string data and on structure. -/
def eraseStrings : Val → Val
  | .vstr _ => .vstr []
  | .vint n => .vint n
  | .vbool b => .vbool b
  | .vother t => .vother t
  | .vptrNil => .vptrNil
  | .vptr v => .vptr (eraseStrings v)
  | .vstruct fs => .vstruct (eraseFields fs)
  | .vslice es => .vslice (eraseElems es)
  | .vmap es => .vmap (eraseEntries es)

def eraseFields : List (Bool × Val) → List (Bool × Val)
  | [] => []
  | (ex, v) :: fs => (ex, eraseStrings v) :: eraseFields fs

def eraseElems : List Val → List Val
  | [] => []
  | v :: vs => eraseStrings v :: eraseElems vs

end

theorem eraseMV_sanMV (m : MVal) : eraseMV (sanMV m) = eraseMV m := by
  cases m <;> rfl

theorem eraseEntries_sanEntries (es : List (List Char × MVal)) :
    eraseEntries (sanEntries es) = eraseEntries es := by
  induction es with
  | nil => rfl
  | cons e es ih =>
    simp only [sanEntries, eraseEntries, List.map_cons, List.map_map] at ih ⊢
    rw [eraseMV_sanMV]
    exact congrArg _ ih

mutual

theorem eraseStrings_sanitizeValue (ro : Bool) (v r : Val)
    (h : sanitizeValue ro v = .ok r) : eraseStrings r = eraseStrings v := by
  cases v with
  | vstr s =>
    cases ro with
    | true => simp [sanitizeValue] at h
    | false =>
      simp only [sanitizeValue, if_neg (by simp : ¬ (false = true)), Except.ok.injEq] at h
      rw [← h]
      rfl
  | vint n =>
    simp only [sanitizeValue, Except.ok.injEq] at h
    rw [← h]
  | vbool b =>
    simp only [sanitizeValue, Except.ok.injEq] at h
    rw [← h]
  | vother t =>
    simp only [sanitizeValue, Except.ok.injEq] at h
    rw [← h]
  | vptrNil =>
    simp only [sanitizeValue, Except.ok.injEq] at h
    rw [← h]
  | vptr w =>
    cases hw : sanitizeValue ro w with
    | error e => simp [sanitizeValue, hw] at h
    | ok r' =>
      simp only [sanitizeValue, hw, Except.ok.injEq] at h
      rw [← h]
      show Val.vptr (eraseStrings r') = Val.vptr (eraseStrings w)
      rw [eraseStrings_sanitizeValue ro w r' hw]
  | vstruct fs =>
    cases hf : sanitizeFields ro fs with
    | error e => simp [sanitizeValue, hf] at h
    | ok rs =>
      simp only [sanitizeValue, hf, Except.ok.injEq] at h
      rw [← h]
      show Val.vstruct (eraseFields rs) = Val.vstruct (eraseFields fs)
      rw [eraseFields_sanitizeFields ro fs rs hf]
  | vslice es =>
    cases he : sanitizeElems ro es with
    | error e => simp [sanitizeValue, he] at h
    | ok rs =>
      simp only [sanitizeValue, he, Except.ok.injEq] at h
      rw [← h]
      show Val.vslice (eraseElems rs) = Val.vslice (eraseElems es)
      rw [eraseElems_sanitizeElems ro es rs he]
  | vmap es =>
    simp only [sanitizeValue, Except.ok.injEq] at h
    rw [← h]
    cases ro with
    | true => rfl
    | false =>
      show Val.vmap (eraseEntries (sanEntries es)) = Val.vmap (eraseEntries es)
      rw [eraseEntries_sanEntries]

theorem eraseFields_sanitizeFields (ro : Bool) (fs rs : List (Bool × Val))
    (h : sanitizeFields ro fs = .ok rs) : eraseFields rs = eraseFields fs := by
  cases fs with
  | nil =>
    simp only [sanitizeFields, Except.ok.injEq] at h
    rw [← h]
  | cons f fs' =>
    obtain ⟨ex, v⟩ := f
    cases hv : sanitizeValue (ro || !ex) v with
    | error e => simp [sanitizeFields, hv] at h
    | ok r' =>
      cases hf : sanitizeFields ro fs' with
      | error e => simp [sanitizeFields, hv, hf] at h
      | ok rs' =>
        simp only [sanitizeFields, hv, hf, Except.ok.injEq] at h
        rw [← h]
        show (ex, eraseStrings r') :: eraseFields rs' = (ex, eraseStrings v) :: eraseFields fs'
        rw [eraseStrings_sanitizeValue (ro || !ex) v r' hv,
          eraseFields_sanitizeFields ro fs' rs' hf]

theorem eraseElems_sanitizeElems (ro : Bool) (es rs : List Val)
    (h : sanitizeElems ro es = .ok rs) : eraseElems rs = eraseElems es := by
  cases es with
  | nil =>
    simp only [sanitizeElems, Except.ok.injEq] at h
    rw [← h]
  | cons v vs =>
    cases hv : sanitizeValue ro v with
    | error e => simp [sanitizeElems, hv] at h
    | ok r' =>
      cases he : sanitizeElems ro vs with
      | error e => simp [sanitizeElems, hv, he] at h
      | ok rs' =>
        simp only [sanitizeElems, hv, he, Except.ok.injEq] at h
        rw [← h]
        show eraseStrings r' :: eraseElems rs' = eraseStrings v :: eraseElems vs
        rw [eraseStrings_sanitizeValue ro v r' hv, eraseElems_sanitizeElems ro vs rs' he]

end

/-- C7 (confirmed).  Whenever a call completes, it has changed nothing but
string contents: erasing every writable string position from the result
gives back the erasure of the input, so every numeric, boolean or other
non-string datum is unchanged and no field, element or map entry was
added, removed or re-typed.  (This holds for both settings of the
read-only flag, and even a panicking call performs no non-string write
before the panic, since `SetString`/`SetMapIndex` on strings are the only
writes in the walk.) -/
theorem sanitizeValue_frame (ro : Bool) (v r : Val)
    (h : sanitizeValue ro v = .ok r) : eraseStrings r = eraseStrings v :=
  eraseStrings_sanitizeValue ro v r h

/-- Witness for `sanitizeValue_frame`: a struct holding a string and an
int; the string is trimmed, the int (and the shape) survive. -/
theorem sanitizeValue_frame_witness :
    sanitizeValue false (.vstruct [(true, .vstr (" a ".toList)), (true, .vint 3)]) =
        .ok (.vstruct [(true, .vstr ("a".toList)), (true, .vint 3)]) ∧
      eraseStrings (.vstruct [(true, .vstr ("a".toList)), (true, .vint 3)]) =
        eraseStrings (.vstruct [(true, .vstr (" a ".toList)), (true, .vint 3)]) := by
  have hs : SanitizeString [' ', 'a', ' '] = ['a'] := by decide
  refine ⟨?_, ?_⟩
  · simp [sanitizeValue, sanitizeFields, hs]
  · exact sanitizeValue_frame false _ _ (by simp [sanitizeValue, sanitizeFields, hs])

/-! ### C4: all reachable addressable string leaves are cleaned -/

mutual

/-- Every struct field of the graph — outside map entry values, which the
walk never enters — is exported.  On such graphs the read-only flag never
arises. -/
def allExported : Val → Bool
  | .vstr _ => true
  | .vint _ => true
  | .vbool _ => true
  | .vother _ => true
  | .vptrNil => true
  | .vptr v => allExported v
  | .vstruct fs => allExportedFields fs
  | .vslice es => allExportedElems es
  | .vmap _ => true

def allExportedFields : List (Bool × Val) → Bool
  | [] => true
  | (ex, v) :: fs => ex && allExported v && allExportedFields fs

def allExportedElems : List Val → Bool
  | [] => true
  | v :: vs => allExported v && allExportedElems vs

end

mutual

/-- The walk as a total function — what `sanitizeValue` computes when the
read-only flag never arises. -/
def pureSan : Val → Val
  | .vstr s => .vstr (SanitizeString s)
  | .vint n => .vint n
  | .vbool b => .vbool b
  | .vother t => .vother t
  | .vptrNil => .vptrNil
  | .vptr v => .vptr (pureSan v)
  | .vstruct fs => .vstruct (pureSanFields fs)
  | .vslice es => .vslice (pureSanElems es)
  | .vmap es => .vmap (sanEntries es)

def pureSanFields : List (Bool × Val) → List (Bool × Val)
  | [] => []
  | (ex, v) :: fs => (ex, pureSan v) :: pureSanFields fs

def pureSanElems : List Val → List Val
  | [] => []
  | v :: vs => pureSan v :: pureSanElems vs

end

mutual

/-- The addressable string leaves of a graph, in walk order: string
scalars reached through pointers, struct fields and sequence elements.
Map entry values are not addressable in Go (the walk rewrites string-kind
ones through `SetMapIndex` — claim C5 — and never descends below a map),
so maps contribute none. -/
def addrStrLeaves : Val → List (List Char)
  | .vstr s => [s]
  | .vint _ => []
  | .vbool _ => []
  | .vother _ => []
  | .vptrNil => []
  | .vptr v => addrStrLeaves v
  | .vstruct fs => addrStrLeavesFields fs
  | .vslice es => addrStrLeavesElems es
  | .vmap _ => []

def addrStrLeavesFields : List (Bool × Val) → List (List Char)
  | [] => []
  | (_, v) :: fs => addrStrLeaves v ++ addrStrLeavesFields fs

def addrStrLeavesElems : List Val → List (List Char)
  | [] => []
  | v :: vs => addrStrLeaves v ++ addrStrLeavesElems vs

end

mutual

theorem sanitizeValue_eq_pureSan (v : Val) (h : allExported v = true) :
    sanitizeValue false v = .ok (pureSan v) := by
  cases v with
  | vstr s => simp [sanitizeValue, pureSan]
  | vint n => rfl
  | vbool b => rfl
  | vother t => rfl
  | vptrNil => rfl
  | vptr w =>
    rw [allExported] at h
    show (match sanitizeValue false w with
      | Except.error e => Except.error e
      | Except.ok r => Except.ok (Val.vptr r)) = Except.ok (Val.vptr (pureSan w))
    rw [sanitizeValue_eq_pureSan w h]
  | vstruct fs =>
    rw [allExported] at h
    show (match sanitizeFields false fs with
      | Except.error e => Except.error e
      | Except.ok rs => Except.ok (Val.vstruct rs)) = Except.ok (Val.vstruct (pureSanFields fs))
    rw [sanitizeFields_eq_pureSan fs h]
  | vslice es =>
    rw [allExported] at h
    show (match sanitizeElems false es with
      | Except.error e => Except.error e
      | Except.ok rs => Except.ok (Val.vslice rs)) = Except.ok (Val.vslice (pureSanElems es))
    rw [sanitizeElems_eq_pureSan es h]
  | vmap es => rfl

theorem sanitizeFields_eq_pureSan (fs : List (Bool × Val))
    (h : allExportedFields fs = true) :
    sanitizeFields false fs = .ok (pureSanFields fs) := by
  cases fs with
  | nil => rfl
  | cons f fs' =>
    obtain ⟨ex, v⟩ := f
    rw [allExportedFields, Bool.and_eq_true, Bool.and_eq_true] at h
    obtain ⟨⟨hex, hv⟩, hfs⟩ := h
    show (match sanitizeValue (false || !ex) v with
      | Except.error err => Except.error err
      | Except.ok r =>
        match sanitizeFields false fs' with
        | Except.error err => Except.error err
        | Except.ok rs => Except.ok ((ex, r) :: rs)) = Except.ok ((ex, pureSan v) :: pureSanFields fs')
    rw [hex]
    show (match sanitizeValue false v with
      | Except.error err => Except.error err
      | Except.ok r =>
        match sanitizeFields false fs' with
        | Except.error err => Except.error err
        | Except.ok rs => Except.ok ((true, r) :: rs)) =
      Except.ok ((true, pureSan v) :: pureSanFields fs')
    rw [sanitizeValue_eq_pureSan v hv, sanitizeFields_eq_pureSan fs' hfs]

theorem sanitizeElems_eq_pureSan (es : List Val)
    (h : allExportedElems es = true) :
    sanitizeElems false es = .ok (pureSanElems es) := by
  cases es with
  | nil => rfl
  | cons v vs =>
    rw [allExportedElems, Bool.and_eq_true] at h
    show (match sanitizeValue false v with
      | Except.error err => Except.error err
      | Except.ok r =>
        match sanitizeElems false vs with
        | Except.error err => Except.error err
        | Except.ok rs => Except.ok (r :: rs)) = Except.ok (pureSan v :: pureSanElems vs)
    rw [sanitizeValue_eq_pureSan v h.1, sanitizeElems_eq_pureSan vs h.2]

end

mutual

theorem addrStrLeaves_pureSan (v : Val) :
    addrStrLeaves (pureSan v) = (addrStrLeaves v).map SanitizeString := by
  cases v with
  | vstr s => rfl
  | vint n => rfl
  | vbool b => rfl
  | vother t => rfl
  | vptrNil => rfl
  | vptr w => exact addrStrLeaves_pureSan w
  | vstruct fs => exact addrStrLeavesFields_pureSan fs
  | vslice es => exact addrStrLeavesElems_pureSan es
  | vmap es => rfl

theorem addrStrLeavesFields_pureSan (fs : List (Bool × Val)) :
    addrStrLeavesFields (pureSanFields fs) = (addrStrLeavesFields fs).map SanitizeString := by
  cases fs with
  | nil => rfl
  | cons f fs' =>
    obtain ⟨ex, v⟩ := f
    show addrStrLeaves (pureSan v) ++ addrStrLeavesFields (pureSanFields fs') =
      (addrStrLeaves v ++ addrStrLeavesFields fs').map SanitizeString
    rw [List.map_append, addrStrLeaves_pureSan v, addrStrLeavesFields_pureSan fs']

theorem addrStrLeavesElems_pureSan (es : List Val) :
    addrStrLeavesElems (pureSanElems es) = (addrStrLeavesElems es).map SanitizeString := by
  cases es with
  | nil => rfl
  | cons v vs =>
    show addrStrLeaves (pureSan v) ++ addrStrLeavesElems (pureSanElems vs) =
      (addrStrLeaves v ++ addrStrLeavesElems vs).map SanitizeString
    rw [List.map_append, addrStrLeaves_pureSan v, addrStrLeavesElems_pureSan vs]

end

/-- C4 (counterexample).  The claim quantifies over *every* acyclic value
graph, but a struct with an unexported string field refutes it: the field
is addressable yet not settable, the code's `CanAddr` fallback routes it
through `field.Addr()`, the `Pointer` arm takes `Elem()` back to the
read-only string, and the unconditional `val.SetString(clean)` panics
("reflect: reflect.Value.SetString using value obtained using unexported
field").  The call never completes, so no string leaf is cleaned. -/
theorem sanitizeStruct_unexported_string_panics :
    SanitizeStruct (.ptrT (.vstruct [(false, .vstr ['x'])])) = .error () := by
  simp [SanitizeStruct, sanitizeValue, sanitizeFields]

/-- C4 (amended).  For every acyclic value graph whose struct fields are
all exported — which includes records with nested pointer-to-record fields
and ordered sequences of records — one call to `SanitizeStruct` on a
reference to the graph returns normally, and the list of reachable,
addressable string leaves of the result (at any depth, in walk order) is
exactly `SanitizeString` applied to each original leaf. -/
theorem sanitizeStruct_cleans_all_exported (v : Val) (h : allExported v = true) :
    ∃ r, SanitizeStruct (.ptrT v) = .ok (.ptrT r) ∧
      addrStrLeaves r = (addrStrLeaves v).map SanitizeString := by
  refine ⟨pureSan v, ?_, addrStrLeaves_pureSan v⟩
  show (match sanitizeValue false v with
    | Except.error e => Except.error e
    | Except.ok r => Except.ok (Target.ptrT r)) = Except.ok (Target.ptrT (pureSan v))
  rw [sanitizeValue_eq_pureSan v h]

/-- Witness for `sanitizeStruct_cleans_all_exported`: a record holding a
string and a pointer to a record in a slice. -/
theorem sanitizeStruct_cleans_witness :
    allExported (.vstruct [(true, .vstr (" a ".toList)),
        (true, .vptr (.vslice [.vstruct [(true, .vstr ("b".toList))]]))]) = true ∧
      ∃ r, SanitizeStruct (.ptrT (.vstruct [(true, .vstr (" a ".toList)),
          (true, .vptr (.vslice [.vstruct [(true, .vstr ("b".toList))]]))])) = .ok (.ptrT r) ∧
        addrStrLeaves r =
          (addrStrLeaves (.vstruct [(true, .vstr (" a ".toList)),
            (true, .vptr (.vslice [.vstruct [(true, .vstr ("b".toList))]]))])).map SanitizeString :=
  ⟨by simp [allExported, allExportedFields, allExportedElems],
    sanitizeStruct_cleans_all_exported _
      (by simp [allExported, allExportedFields, allExportedElems])⟩

/-! ### C9: the traversal terminates, with fuel bounded by the node count -/

mutual

/-- Number of nodes the walk visits at or below a value.  Map entries are
rewritten without recursion, so a map is a single node. -/
def sizeV : Val → Nat
  | .vstr _ => 1
  | .vint _ => 1
  | .vbool _ => 1
  | .vother _ => 1
  | .vptrNil => 1
  | .vptr v => sizeV v + 1
  | .vstruct fs => sizeFields fs + 1
  | .vslice es => sizeElems es + 1
  | .vmap _ => 1

def sizeFields : List (Bool × Val) → Nat
  | [] => 0
  | (_, v) :: fs => sizeV v + sizeFields fs

def sizeElems : List Val → Nat
  | [] => 0
  | v :: vs => sizeV v + sizeElems vs

end

mutual

/-- The walk `sanitizeValue` with explicit fuel: descending into a child consumes
one unit and `none` means the fuel ran out.  The fuel theorem below shows
that fuel `sizeV v` always suffices, i.e. the recursion is well-founded,
descends into strictly smaller sub-values, and is bounded by the number of
reachable nodes. -/
def fuelSan : Nat → Bool → Val → Option (Except Unit Val)
  | 0, _, _ => none
  | _ + 1, ro, .vstr s => some (if ro then .error () else .ok (.vstr (SanitizeString s)))
  | _ + 1, _, .vint n => some (.ok (.vint n))
  | _ + 1, _, .vbool b => some (.ok (.vbool b))
  | _ + 1, _, .vother t => some (.ok (.vother t))
  | _ + 1, _, .vptrNil => some (.ok .vptrNil)
  | f + 1, ro, .vptr v =>
    match fuelSan f ro v with
    | none => none
    | some (.error e) => some (.error e)
    | some (.ok r) => some (.ok (.vptr r))
  | f + 1, ro, .vstruct fs =>
    match fuelSanFields f ro fs with
    | none => none
    | some (.error e) => some (.error e)
    | some (.ok rs) => some (.ok (.vstruct rs))
  | f + 1, ro, .vslice es =>
    match fuelSanElems f ro es with
    | none => none
    | some (.error e) => some (.error e)
    | some (.ok rs) => some (.ok (.vslice rs))
  | _ + 1, ro, .vmap es => some (.ok (.vmap (if ro then es else sanEntries es)))

def fuelSanFields : Nat → Bool → List (Bool × Val) → Option (Except Unit (List (Bool × Val)))
  | _, _, [] => some (.ok [])
  | f, ro, (ex, v) :: fs =>
    match fuelSan f (ro || !ex) v with
    | none => none
    | some (.error e) => some (.error e)
    | some (.ok r) =>
      match fuelSanFields f ro fs with
      | none => none
      | some (.error e) => some (.error e)
      | some (.ok rs) => some (.ok ((ex, r) :: rs))

def fuelSanElems : Nat → Bool → List Val → Option (Except Unit (List Val))
  | _, _, [] => some (.ok [])
  | f, ro, v :: vs =>
    match fuelSan f ro v with
    | none => none
    | some (.error e) => some (.error e)
    | some (.ok r) =>
      match fuelSanElems f ro vs with
      | none => none
      | some (.error e) => some (.error e)
      | some (.ok rs) => some (.ok (r :: rs))

end

mutual

theorem fuelSan_adequate (f : Nat) (ro : Bool) (v : Val) (h : sizeV v ≤ f) :
    fuelSan f ro v = some (sanitizeValue ro v) := by
  cases v with
  | vstr s =>
    cases f with
    | zero => simp [sizeV] at h
    | succ f' => cases ro <;> rfl
  | vint n =>
    cases f with
    | zero => simp [sizeV] at h
    | succ f' => rfl
  | vbool b =>
    cases f with
    | zero => simp [sizeV] at h
    | succ f' => rfl
  | vother t =>
    cases f with
    | zero => simp [sizeV] at h
    | succ f' => rfl
  | vptrNil =>
    cases f with
    | zero => simp [sizeV] at h
    | succ f' => rfl
  | vptr w =>
    cases f with
    | zero => simp [sizeV] at h
    | succ f' =>
      rw [sizeV] at h
      have hw : sizeV w ≤ f' := by omega
      show (match fuelSan f' ro w with
        | none => none
        | some (Except.error e) => some (Except.error e)
        | some (Except.ok r) => some (Except.ok (Val.vptr r))) =
          some (sanitizeValue ro (Val.vptr w))
      rw [fuelSan_adequate f' ro w hw]
      cases hr : sanitizeValue ro w <;> simp [sanitizeValue, hr]
  | vstruct fs =>
    cases f with
    | zero => simp [sizeV] at h
    | succ f' =>
      rw [sizeV] at h
      have hfs : sizeFields fs ≤ f' := by omega
      show (match fuelSanFields f' ro fs with
        | none => none
        | some (Except.error e) => some (Except.error e)
        | some (Except.ok rs) => some (Except.ok (Val.vstruct rs))) =
          some (sanitizeValue ro (Val.vstruct fs))
      rw [fuelSanFields_adequate f' ro fs hfs]
      cases hr : sanitizeFields ro fs <;> simp [sanitizeValue, hr]
  | vslice es =>
    cases f with
    | zero => simp [sizeV] at h
    | succ f' =>
      rw [sizeV] at h
      have hes : sizeElems es ≤ f' := by omega
      show (match fuelSanElems f' ro es with
        | none => none
        | some (Except.error e) => some (Except.error e)
        | some (Except.ok rs) => some (Except.ok (Val.vslice rs))) =
          some (sanitizeValue ro (Val.vslice es))
      rw [fuelSanElems_adequate f' ro es hes]
      cases hr : sanitizeElems ro es <;> simp [sanitizeValue, hr]
  | vmap es =>
    cases f with
    | zero => simp [sizeV] at h
    | succ f' => rfl

theorem fuelSanFields_adequate (f : Nat) (ro : Bool) (fs : List (Bool × Val))
    (h : sizeFields fs ≤ f) : fuelSanFields f ro fs = some (sanitizeFields ro fs) := by
  cases fs with
  | nil => rfl
  | cons fd fs' =>
    obtain ⟨ex, v⟩ := fd
    rw [sizeFields] at h
    have hsv : 1 ≤ sizeV v := by
      cases v <;> simp [sizeV]
    have hv : sizeV v ≤ f := by omega
    have hfs : sizeFields fs' ≤ f := by omega
    show (match fuelSan f (ro || !ex) v with
      | none => none
      | some (Except.error e) => some (Except.error e)
      | some (Except.ok r) =>
        match fuelSanFields f ro fs' with
        | none => none
        | some (Except.error e) => some (Except.error e)
        | some (Except.ok rs) => some (Except.ok ((ex, r) :: rs))) =
        some (sanitizeFields ro ((ex, v) :: fs'))
    rw [fuelSan_adequate f (ro || !ex) v hv, fuelSanFields_adequate f ro fs' hfs]
    cases hr : sanitizeValue (ro || !ex) v with
    | error e => simp [sanitizeFields, hr]
    | ok r =>
      cases hrs : sanitizeFields ro fs' with
      | error e => simp [sanitizeFields, hr, hrs]
      | ok rs => simp [sanitizeFields, hr, hrs]

theorem fuelSanElems_adequate (f : Nat) (ro : Bool) (es : List Val)
    (h : sizeElems es ≤ f) : fuelSanElems f ro es = some (sanitizeElems ro es) := by
  cases es with
  | nil => rfl
  | cons v vs =>
    rw [sizeElems] at h
    have hsv : 1 ≤ sizeV v := by
      cases v <;> simp [sizeV]
    have hv : sizeV v ≤ f := by omega
    have hvs : sizeElems vs ≤ f := by omega
    show (match fuelSan f ro v with
      | none => none
      | some (Except.error e) => some (Except.error e)
      | some (Except.ok r) =>
        match fuelSanElems f ro vs with
        | none => none
        | some (Except.error e) => some (Except.error e)
        | some (Except.ok rs) => some (Except.ok (r :: rs))) =
        some (sanitizeElems ro (v :: vs))
    rw [fuelSan_adequate f ro v hv, fuelSanElems_adequate f ro vs hvs]
    cases hr : sanitizeValue ro v with
    | error e => simp [sanitizeElems, hr]
    | ok r =>
      cases hrs : sanitizeElems ro vs with
      | error e => simp [sanitizeElems, hr, hrs]
      | ok rs => simp [sanitizeElems, hr, hrs]

end

/-- C9 (confirmed).  The traversal terminates on every finite acyclic value
graph: running the walk with explicit fuel equal to the number of reachable
nodes (`sizeV v`) never exhausts the fuel and computes exactly
`sanitizeValue` — the recursion is well-founded, each level descending into
strictly smaller sub-values.  (In the Lean embedding `sanitizeValue` is
moreover a total function on the inductive — hence finite and acyclic —
graphs.) -/
theorem sanitizeValue_terminates (ro : Bool) (v : Val) :
    fuelSan (sizeV v) ro v = some (sanitizeValue ro v) :=
  fuelSan_adequate (sizeV v) ro v (Nat.le_refl _)
